import Mathlib

/-!
Shallow embedding of the Script2Sound chunked-synthesis pipeline
(`src/backend/app/tts_service.py` and `src/backend/app/main.py`).

Text is modelled as `List Char` (Python `str`, one entry per code point).
Audio bytes are modelled as `List Nat`.  The remote Google TTS engine is an
arbitrary function from an engine call (synthesis input, speaking rate,
pitch) to `Except ε (List Nat)`; a Python exception raised by the remote
call is `Except.error`.  `text_to_speech` additionally returns the ordered
trace of engine calls it issued, so that "the engine receives zero calls",
"one call per chunk" and "no retry" are observable facts of the model.
-/

deriving instance DecidableEq for Except

namespace Script2Sound

/-- Python whitespace as used by `str.split()` / `str.strip()`
(ASCII whitespace; exotic Unicode space code points are not modelled,
no input in this development contains them). -/
def isPySpace (c : Char) : Bool :=
  c = ' ' || c = '\t' || c = '\n' || c = '\r' || c = '\x0b' || c = '\x0c'

/-- Leading-whitespace removal, the first half of Python `str.strip()`. -/
def dropLeadingWs (l : List Char) : List Char :=
  l.dropWhile isPySpace

/-- Trailing-whitespace removal, the second half of Python `str.strip()`. -/
def dropTrailingWs (l : List Char) : List Char :=
  (l.reverse.dropWhile isPySpace).reverse

/-- Python `str.strip()`. -/
def pyStrip (l : List Char) : List Char :=
  dropTrailingWs (dropLeadingWs l)

/-- Helper for `pySplitWs`: `acc` holds the current word reversed. -/
def splitWsAux : List Char → List Char → List (List Char)
  | [], acc => if acc = [] then [] else [acc.reverse]
  | c :: cs, acc =>
    if isPySpace c then
      if acc = [] then splitWsAux cs [] else acc.reverse :: splitWsAux cs []
    else splitWsAux cs (c :: acc)

/-- Python `str.split()` with no argument: split on whitespace runs,
discarding empty words. -/
def pySplitWs (l : List Char) : List (List Char) :=
  splitWsAux l []

/-- Python join of words with single spaces. -/
def joinSpace : List (List Char) → List Char
  | [] => []
  | [w] => w
  | w :: ws => w ++ ' ' :: joinSpace ws

/-- Python `str.replace(a, b)` for single characters. -/
def pyReplace (a b : Char) (l : List Char) : List Char :=
  l.map fun c => if c = a then b else c

/-- Helper for `rtAux` and `containsTag`: scan for the first `>`,
returning the characters before it and the characters after it. -/
def findTagEnd : List Char → Option (List Char × List Char)
  | [] => none
  | c :: cs =>
    if c = '>' then some ([], cs)
    else
      match findTagEnd cs with
      | some (ins, rest) => some (c :: ins, rest)
      | none => none

/-- One-pass tag remover implementing the Python regex substitution in
`_clean_text` that deletes every match of `<[^>]+>`.  State `none`: outside any candidate tag.
State `some buf`: an opening `<` is pending and `buf` holds (reversed)
the non-`>` characters read since.  A `>` with a non-empty buffer
closes the match and everything from the `<` through the `>` is
dropped; a `>` immediately after `<` means the pattern (which needs at
least one inner character) cannot match at that `<`, so both characters
are kept, exactly as the regex engine advances past an unmatchable start
position; if the input ends with a pending `<`, no `>` ever closed it,
no match started there, and the buffered characters are restored. -/
def rtAux : List Char → Option (List Char) → List Char
  | [], none => []
  | [], some buf => '<' :: buf.reverse
  | c :: cs, none =>
    if c = '<' then rtAux cs (some []) else c :: rtAux cs none
  | c :: cs, some buf =>
    if c = '>' then
      if buf = [] then '<' :: '>' :: rtAux cs none
      else rtAux cs none
    else rtAux cs (some (c :: buf))

/-- The regex substitution of `_clean_text`: remove every angle-bracket
delimited tag (a `<`, one or more non-`>` characters, then `>`). -/
def removeTags (l : List Char) : List Char :=
  rtAux l none

/-- Decides whether an angle-bracket tag pattern (`<`, one or more
non-`>` characters, `>`) occurs anywhere in `l`. -/
def containsTag : List Char → Bool
  | [] => false
  | c :: cs =>
    (if c = '<' then
      match findTagEnd cs with
      | some (ins, _) => !ins.isEmpty
      | none => false
     else false) || containsTag cs

/-- `TTSService._clean_text` (tts_service.py lines 160-182): collapse
whitespace runs via a split-and-join with single spaces, replace `\n`, `\r`,
`\t` by spaces (no-ops after the join, kept for fidelity), strip
angle-bracket tags, and trim.  Applied unconditionally: it takes no
markup flag. -/
def clean_text (text : List Char) : List Char :=
  pyStrip (removeTags (pyReplace '\t' ' ' (pyReplace '\r' ' '
    (pyReplace '\n' ' ' (joinSpace (pySplitWs text))))))

/-- Python string split with the dot separator: split on every `.`,
keeping empty pieces
(the empty string splits to one empty piece). -/
def splitOnDot : List Char → List (List Char)
  | [] => [[]]
  | c :: cs =>
    if c = '.' then [] :: splitOnDot cs
    else
      match splitOnDot cs with
      | [] => [[c]]
      | t :: ts => (c :: t) :: ts

/-- tts_service.py line 50: rewrite every `!` and `?` to `.`, then split
on `.`. -/
def sentencesOf (text : List Char) : List (List Char) :=
  splitOnDot (pyReplace '?' '.' (pyReplace '!' '.' text))

/-- tts_service.py lines 64-66 and 69-70:
`if current_chunk: chunks.append(current_chunk.strip())`. -/
def flushChunk (chunks : List (List Char)) (cur : List Char) :
    List (List Char) :=
  if cur = [] then chunks else chunks ++ [pyStrip cur]

/-- The sentence-accumulation loop of `_chunk_text`
(tts_service.py lines 53-70). -/
def chunkLoop (maxChars : Nat) :
    List (List Char) → List Char → List (List Char) → List (List Char)
  | [], cur, chunks => flushChunk chunks cur
  | s :: rest, cur, chunks =>
    if pyStrip s = [] then chunkLoop maxChars rest cur chunks
    else if (cur ++ pyStrip s ++ ['.', ' ']).length ≤ maxChars then
      chunkLoop maxChars rest (cur ++ pyStrip s ++ ['.', ' ']) chunks
    else chunkLoop maxChars rest (pyStrip s ++ ['.', ' ']) (flushChunk chunks cur)

/-- `TTSService._chunk_text` (tts_service.py lines 36-74), with the
instance attribute `self.max_chars` as an explicit parameter. -/
def chunk_text (maxChars : Nat) (text : List Char) : List (List Char) :=
  if text.length ≤ maxChars then [text]
  else chunkLoop maxChars (sentencesOf text) [] []

/-- `TTSService.__init__` sets `self.max_chars = 10000`
(tts_service.py line 30). -/
def max_chars : Nat := 10000

/-- `texttospeech.SynthesisInput`: either `ssml=chunk` or `text=chunk`. -/
inductive SynthesisInput
  | ssml (s : List Char)
  | text (s : List Char)
deriving DecidableEq, Repr

/-- The character payload of a synthesis input. -/
def inputChars : SynthesisInput → List Char
  | SynthesisInput.ssml s => s
  | SynthesisInput.text s => s

/-- Python `str.startswith`: `beginsWith p l` is true iff `p` is an
initial segment of `l`. -/
def beginsWith : List Char → List Char → Bool
  | [], _ => true
  | _ :: _, [] => false
  | p :: ps, c :: cs => p = c && beginsWith ps cs

/-- The literal `<?xml` checked by tts_service.py line 118. -/
def xmlProlog : List Char := ['<', '?', 'x', 'm', 'l']

/-- tts_service.py lines 117-120: use SSML iff the request was flagged as
SSML and the stripped chunk literally starts with `<?xml`. -/
def buildInput (is_ssml : Bool) (chunk : List Char) : SynthesisInput :=
  if is_ssml && beginsWith xmlProlog (pyStrip chunk) then
    SynthesisInput.ssml chunk
  else SynthesisInput.text chunk

/-- One call to `client.synthesize_speech`: the synthesis input together
with the `speaking_rate` and `pitch` put into its `AudioConfig`
(tts_service.py lines 129-136; the fixed audio constants — MP3 encoding,
24000 Hz, headphone effects profile — are the same for every call and are
not modelled). -/
structure EngineCall where
  input : SynthesisInput
  speaking_rate : ℚ
  pitch : ℚ
deriving DecidableEq, Repr

/-- The engine call issued for one chunk. -/
def mkCall (is_ssml : Bool) (rate pitch : ℚ) (chunk : List Char) :
    EngineCall :=
  ⟨buildInput is_ssml chunk, rate, pitch⟩

/-- Errors surfaced by `text_to_speech`: the `ValueError` raised for empty
input, or a re-raised remote-engine exception. -/
inductive TTSError (ε : Type)
  | validation
  | engine (e : ε)
deriving DecidableEq, Repr

/-- The per-chunk loop of `text_to_speech` (tts_service.py lines 113-152):
call the engine once per chunk, in order; the first failure aborts the
loop and propagates.  Returns the trace of calls issued and either the
first error or the list of per-chunk audio segments. -/
def runChunks {ε : Type} (engine : EngineCall → Except ε (List Nat))
    (is_ssml : Bool) (rate pitch : ℚ) :
    List (List Char) → List EngineCall × Except ε (List (List Nat))
  | [] => ([], Except.ok [])
  | c :: cs =>
    match engine (mkCall is_ssml rate pitch c) with
    | Except.error e => ([mkCall is_ssml rate pitch c], Except.error e)
    | Except.ok bytes =>
      match runChunks engine is_ssml rate pitch cs with
      | (calls, Except.error e) =>
        (mkCall is_ssml rate pitch c :: calls, Except.error e)
      | (calls, Except.ok segs) =>
        (mkCall is_ssml rate pitch c :: calls, Except.ok (bytes :: segs))

/-- `TTSService.text_to_speech` (tts_service.py lines 76-158): reject
input that is empty after `str.strip()` (the raw input, before cleaning),
clean the text, chunk it, synthesize every chunk in order, and return the
byte concatenation of the audio segments.  The first component is
the ordered trace of remote-engine calls issued. -/
def text_to_speech {ε : Type} (engine : EngineCall → Except ε (List Nat))
    (maxChars : Nat) (text : List Char) (rate pitch : ℚ) (is_ssml : Bool) :
    List EngineCall × Except (TTSError ε) (List Nat) :=
  if pyStrip text = [] then ([], Except.error TTSError.validation)
  else
    match runChunks engine is_ssml rate pitch
        (chunk_text maxChars (clean_text text)) with
    | (calls, Except.error e) => (calls, Except.error (TTSError.engine e))
    | (calls, Except.ok segs) => (calls, Except.ok segs.flatten)

/-- The field bounds of `TextToSpeechRequest` (main.py lines 44-50):
`text` has `min_length=1, max_length=50000`, `speaking_rate` has
`ge=0.25, le=4.0`, `pitch` has `ge=-20.0, le=20.0`.  The rate and pitch
bounds are exactly representable, so rationals model the float
comparisons faithfully. -/
def requestValid (text : List Char) (rate pitch : ℚ) : Prop :=
  1 ≤ text.length ∧ text.length ≤ 50000 ∧
    (1 / 4 : ℚ) ≤ rate ∧ rate ≤ 4 ∧ (-20 : ℚ) ≤ pitch ∧ pitch ≤ 20

instance (text : List Char) (rate pitch : ℚ) :
    Decidable (requestValid text rate pitch) := by
  unfold requestValid; infer_instance

/-- The `/generate-audio` endpoint (main.py lines 96-144): pydantic
validates the request bounds before the handler runs (a bound violation
is a validation error and the handler, hence the pipeline, never runs);
the handler then calls `text_to_speech` without passing `is_ssml`, so the
flag takes its default `False`. -/
def generate_audio {ε : Type} (engine : EngineCall → Except ε (List Nat))
    (text : List Char) (rate pitch : ℚ) :
    List EngineCall × Except (TTSError ε) (List Nat) :=
  if requestValid text rate pitch then
    text_to_speech engine max_chars text rate pitch false
  else ([], Except.error TTSError.validation)

/-- Mock engine returning the character codes of its input text;
used to observe what text the remote engine receives. -/
def echoEngine : EngineCall → Except Unit (List Nat) :=
  fun call => Except.ok ((inputChars call.input).map Char.toNat)

/-- Mock engine returning the fixed segment `[7]` on every call;
a run whose result contains `7` has certainly called the engine. -/
def constEngine7 : EngineCall → Except Unit (List Nat) :=
  fun _ => Except.ok [7]

/-- Mock engine failing every call with error code `7`. -/
def failEngine7 : EngineCall → Except Nat (List Nat) :=
  fun _ => Except.error 7

/-- Mock engine returning the fixed two-byte segment `[1, 2]`. -/
def twoByteEngine : EngineCall → Except Unit (List Nat) :=
  fun _ => Except.ok [1, 2]

/-! ### Whitespace and `str.strip()` lemmas -/

theorem mem_dropLeadingWs {c : Char} {l : List Char}
    (h : c ∈ dropLeadingWs l) : c ∈ l :=
  (List.dropWhile_sublist isPySpace).subset h

theorem mem_dropTrailingWs {c : Char} {l : List Char}
    (h : c ∈ dropTrailingWs l) : c ∈ l := by
  unfold dropTrailingWs at h
  rw [List.mem_reverse] at h
  exact List.mem_reverse.mp ((List.dropWhile_sublist isPySpace).subset h)

theorem mem_pyStrip {c : Char} {l : List Char} (h : c ∈ pyStrip l) :
    c ∈ l :=
  mem_dropLeadingWs (mem_dropTrailingWs h)

theorem dropLeadingWs_head :
    ∀ l : List Char, dropLeadingWs l = [] ∨
      ∃ h t, dropLeadingWs l = h :: t ∧ isPySpace h = false := by
  intro l
  induction l with
  | nil => exact Or.inl rfl
  | cons c cs ih =>
    by_cases hc : isPySpace c = true
    · simpa [dropLeadingWs, List.dropWhile, hc] using ih
    · exact Or.inr ⟨c, cs, by simp [dropLeadingWs, List.dropWhile, hc],
        by simpa using hc⟩

theorem dropLeadingWs_cons_false {h : Char} {t : List Char}
    (hh : isPySpace h = false) : dropLeadingWs (h :: t) = h :: t := by
  simp [dropLeadingWs, List.dropWhile, hh]

theorem dropTrailingWs_nil : dropTrailingWs ([] : List Char) = [] := rfl

theorem dropTrailingWs_append_false {l : List Char} {x : Char}
    (hx : isPySpace x = false) : dropTrailingWs (l ++ [x]) = l ++ [x] := by
  simp [dropTrailingWs, List.dropWhile, hx]

theorem dropTrailingWs_append_true {l : List Char} {x : Char}
    (hx : isPySpace x = true) : dropTrailingWs (l ++ [x]) = dropTrailingWs l := by
  simp [dropTrailingWs, List.dropWhile, hx]

theorem dropTrailingWs_last :
    ∀ l : List Char, dropTrailingWs l = [] ∨
      ∃ f x, dropTrailingWs l = f ++ [x] ∧ isPySpace x = false := by
  intro l
  rcases dropLeadingWs_head l.reverse with h | ⟨h, t, heq, hh⟩
  · left
    simp only [dropTrailingWs]
    rw [show l.reverse.dropWhile isPySpace = dropLeadingWs l.reverse from rfl,
      h]
    rfl
  · right
    refine ⟨t.reverse, h, ?_, hh⟩
    simp only [dropTrailingWs]
    rw [show l.reverse.dropWhile isPySpace = dropLeadingWs l.reverse from rfl,
      heq]
    simp

theorem dropTrailingWs_cons (h : Char) (t : List Char) :
    dropTrailingWs (h :: t) = [] ∨
      ∃ t', dropTrailingWs (h :: t) = h :: t' := by
  have h1 : (h :: t).reverse.dropWhile isPySpace <:+ (h :: t).reverse :=
    List.dropWhile_suffix isPySpace
  obtain ⟨u, hu⟩ := h1
  have hpre : dropTrailingWs (h :: t) <+: h :: t := by
    refine ⟨u.reverse, ?_⟩
    have h2 := congrArg List.reverse hu
    rw [List.reverse_append, List.reverse_reverse] at h2
    exact h2
  rcases hd : dropTrailingWs (h :: t) with _ | ⟨x, xs⟩
  · exact Or.inl rfl
  · rcases hpre with ⟨r, hr⟩
    rw [hd] at hr
    simp only [List.cons_append, List.cons.injEq] at hr
    exact Or.inr ⟨xs, by rw [hr.1]⟩

theorem pyStripGood (l : List Char) :
    pyStrip l = [] ∨
      ((∃ h t, pyStrip l = h :: t ∧ isPySpace h = false) ∧
       (∃ f x, pyStrip l = f ++ [x] ∧ isPySpace x = false)) := by
  rcases dropLeadingWs_head l with h0 | ⟨h, t, heq, hh⟩
  · left; simp [pyStrip, h0, dropTrailingWs_nil]
  · rcases dropTrailingWs_last (h :: t) with h1 | ⟨f, x, hfx, hx⟩
    · left; simp [pyStrip, heq, h1]
    · right
      constructor
      · rcases dropTrailingWs_cons h t with h2 | ⟨t', ht'⟩
        · exact absurd (h2 ▸ hfx) (by simp)
        · exact ⟨h, t', by simp [pyStrip, heq, ht'], hh⟩
      · exact ⟨f, x, by simp [pyStrip, heq, hfx], hx⟩

theorem pyStrip_eq_self {l : List Char}
    (hh : ∃ h t, l = h :: t ∧ isPySpace h = false)
    (hl : ∃ f x, l = f ++ [x] ∧ isPySpace x = false) : pyStrip l = l := by
  obtain ⟨h, t, rfl, hh⟩ := hh
  obtain ⟨f, x, hfx, hx⟩ := hl
  unfold pyStrip
  rw [dropLeadingWs_cons_false hh, hfx, dropTrailingWs_append_false hx]

theorem pyStrip_idem (l : List Char) : pyStrip (pyStrip l) = pyStrip l := by
  rcases pyStripGood l with h | ⟨hh, hl⟩
  · rw [h]; rfl
  · exact pyStrip_eq_self hh hl

theorem pyStrip_middle (l : List Char) :
    ∃ p s, l = p ++ pyStrip l ++ s := by
  refine ⟨l.takeWhile isPySpace,
    ((dropLeadingWs l).reverse.takeWhile isPySpace).reverse, ?_⟩
  have h1 : l = l.takeWhile isPySpace ++ dropLeadingWs l :=
    (List.takeWhile_append_dropWhile isPySpace l).symm
  have h2 : dropLeadingWs l =
      pyStrip l ++ ((dropLeadingWs l).reverse.takeWhile isPySpace).reverse := by
    have h3 : (dropLeadingWs l).reverse =
        (dropLeadingWs l).reverse.takeWhile isPySpace ++
          (dropLeadingWs l).reverse.dropWhile isPySpace :=
      (List.takeWhile_append_dropWhile isPySpace (dropLeadingWs l).reverse).symm
    calc dropLeadingWs l = (dropLeadingWs l).reverse.reverse := by simp
    _ = ((dropLeadingWs l).reverse.takeWhile isPySpace ++
          (dropLeadingWs l).reverse.dropWhile isPySpace).reverse := by rw [← h3]
    _ = pyStrip l ++ ((dropLeadingWs l).reverse.takeWhile isPySpace).reverse := by
          rw [List.reverse_append]; rfl
  rw [List.append_assoc, ← h2]; exact h1

/-! ### Tag-removal lemmas -/

theorem findTagEnd_spec {l ins rest : List Char}
    (h : findTagEnd l = some (ins, rest)) :
    l = ins ++ '>' :: rest ∧ '>' ∉ ins := by
  induction l generalizing ins rest with
  | nil => simp [findTagEnd] at h
  | cons c cs ih =>
    by_cases hc : c = '>'
    · subst hc
      simp [findTagEnd] at h
      obtain ⟨rfl, rfl⟩ := h
      simp
    · rw [findTagEnd, if_neg hc] at h
      cases hfe : findTagEnd cs with
      | none => rw [hfe] at h; simp at h
      | some pr =>
        obtain ⟨ins', rest'⟩ := pr
        rw [hfe] at h
        simp at h
        obtain ⟨rfl, rfl⟩ := h
        obtain ⟨heq, hmem⟩ := ih hfe
        exact ⟨by rw [heq]; rfl, by simp [hmem, Ne.symm hc]⟩

theorem findTagEnd_none {l : List Char} (h : '>' ∉ l) :
    findTagEnd l = none := by
  induction l with
  | nil => rfl
  | cons c cs ih =>
    have hc : ¬ c = '>' := fun hcc => h (hcc ▸ List.mem_cons_self c cs)
    rw [findTagEnd, if_neg hc, ih (fun hm => h (List.mem_cons_of_mem c hm))]

theorem findTagEnd_append {m v : List Char} (h : '>' ∉ m) :
    findTagEnd (m ++ '>' :: v) = some (m, v) := by
  induction m with
  | nil => simp [findTagEnd]
  | cons c cs ih =>
    have hc : ¬ c = '>' := fun hcc => h (hcc ▸ List.mem_cons_self c cs)
    rw [List.cons_append, findTagEnd, if_neg hc,
      ih (fun hm => h (List.mem_cons_of_mem c hm))]

theorem containsTag_no_gt {l : List Char} (h : '>' ∉ l) :
    containsTag l = false := by
  induction l with
  | nil => rfl
  | cons c cs ih =>
    have hcs : '>' ∉ cs := fun hm => h (List.mem_cons_of_mem c hm)
    rw [containsTag, findTagEnd_none hcs, ih hcs]
    simp

theorem mem_rtAux {c : Char} :
    ∀ (l : List Char) (st : Option (List Char)), c ∈ rtAux l st →
      c ∈ l ∨ ∃ b, st = some b ∧ (c = '<' ∨ c ∈ b) := by
  intro l
  induction l with
  | nil =>
    intro st h
    cases st with
    | none => simp [rtAux] at h
    | some buf =>
      simp only [rtAux, List.mem_cons, List.mem_reverse] at h
      exact Or.inr ⟨buf, rfl, h⟩
  | cons d ds ih =>
    intro st h
    cases st with
    | none =>
      by_cases hd : d = '<'
      · subst hd
        rw [rtAux, if_pos rfl] at h
        rcases ih (some []) h with hm | ⟨b, hb, hcb⟩
        · exact Or.inl (List.mem_cons_of_mem _ hm)
        · have hb' : ([] : List Char) = b := Option.some.inj hb
          subst hb'
          rcases hcb with rfl | hfalse
          · exact Or.inl (List.mem_cons_self _ _)
          · simp at hfalse
      · rw [rtAux, if_neg hd] at h
        rcases List.mem_cons.mp h with rfl | hm
        · exact Or.inl (List.mem_cons_self _ _)
        · rcases ih none hm with hm' | ⟨b, hb, _⟩
          · exact Or.inl (List.mem_cons_of_mem _ hm')
          · cases hb
    | some buf =>
      by_cases hd : d = '>'
      · subst hd
        by_cases hbuf : buf = []
        · rw [rtAux, if_pos rfl, if_pos hbuf] at h
          rcases List.mem_cons.mp h with rfl | h
          · exact Or.inr ⟨buf, rfl, Or.inl rfl⟩
          · rcases List.mem_cons.mp h with rfl | hm
            · exact Or.inl (List.mem_cons_self _ _)
            · rcases ih none hm with hm' | ⟨b, hb, _⟩
              · exact Or.inl (List.mem_cons_of_mem _ hm')
              · cases hb
        · rw [rtAux, if_pos rfl, if_neg hbuf] at h
          rcases ih none h with hm' | ⟨b, hb, _⟩
          · exact Or.inl (List.mem_cons_of_mem _ hm')
          · cases hb
      · rw [rtAux, if_neg hd] at h
        rcases ih (some (d :: buf)) h with hm' | ⟨b, hb, hcb⟩
        · exact Or.inl (List.mem_cons_of_mem _ hm')
        · have hb' : b = d :: buf := (Option.some.inj hb).symm
          subst hb'
          rcases hcb with rfl | hm
          · exact Or.inr ⟨buf, rfl, Or.inl rfl⟩
          · rcases List.mem_cons.mp hm with rfl | hm'
            · exact Or.inl (List.mem_cons_self _ _)
            · exact Or.inr ⟨buf, rfl, Or.inr hm'⟩

theorem mem_removeTags {c : Char} {l : List Char} (h : c ∈ removeTags l) :
    c ∈ l := by
  rcases mem_rtAux l none h with hm | ⟨b, hb, _⟩
  · exact hm
  · cases hb

theorem containsTag_rtAux :
    ∀ (l : List Char) (st : Option (List Char)),
      (∀ b, st = some b → '>' ∉ b) → containsTag (rtAux l st) = false := by
  intro l
  induction l with
  | nil =>
    intro st hst
    cases st with
    | none => rfl
    | some buf =>
      have hbuf : '>' ∉ buf.reverse := by
        simpa using hst buf rfl
      rw [rtAux, containsTag, findTagEnd_none hbuf, containsTag_no_gt hbuf]
      simp
  | cons d ds ih =>
    intro st hst
    cases st with
    | none =>
      by_cases hd : d = '<'
      · subst hd
        rw [rtAux, if_pos rfl]
        exact ih (some []) (by intro b hb; injection hb with hb'; simp [← hb'])
      · rw [rtAux, if_neg hd, containsTag, if_neg hd,
          ih none (by intro b hb; cases hb)]
        simp
    | some buf =>
      have hbuf : '>' ∉ buf := hst buf rfl
      by_cases hd : d = '>'
      · subst hd
        by_cases hb0 : buf = []
        · rw [rtAux, if_pos rfl, if_pos hb0, containsTag, if_pos rfl,
            containsTag]
          have h1 : findTagEnd ('>' :: rtAux ds none) =
              some ([], rtAux ds none) := by
            rw [findTagEnd, if_pos rfl]
          rw [h1, ih none (by intro b hb; cases hb)]
          simp [containsTag]
        · rw [rtAux, if_pos rfl, if_neg hb0]
          exact ih none (by intro b hb; cases hb)
      · rw [rtAux, if_neg hd]
        refine ih (some (d :: buf)) ?_
        intro b hb
        injection hb with hb'
        subst hb'
        simp [hbuf, Ne.symm hd]

theorem containsTag_removeTags (l : List Char) :
    containsTag (removeTags l) = false :=
  containsTag_rtAux l none (by intro b hb; cases hb)

theorem containsTag_of_tag (u m v : List Char) (hm : m ≠ [])
    (hgt : '>' ∉ m) :
    containsTag (u ++ '<' :: (m ++ '>' :: v)) = true := by
  induction u with
  | nil =>
    rw [List.nil_append, containsTag, if_pos rfl, findTagEnd_append hgt]
    simp [hm]
  | cons a u' ih =>
    rw [List.cons_append, containsTag, ih]
    simp

theorem containsTag_decomp {l : List Char} (h : containsTag l = true) :
    ∃ u m v, l = u ++ '<' :: (m ++ '>' :: v) ∧ m ≠ [] ∧ '>' ∉ m := by
  induction l with
  | nil => simp [containsTag] at h
  | cons c cs ih =>
    rw [containsTag, Bool.or_eq_true] at h
    rcases h with h | h
    · by_cases hc : c = '<'
      · subst hc
        rw [if_pos rfl] at h
        cases hfe : findTagEnd cs with
        | none => rw [hfe] at h; simp at h
        | some pr =>
          obtain ⟨ins, rest⟩ := pr
          rw [hfe] at h
          obtain ⟨heq, hgt⟩ := findTagEnd_spec hfe
          refine ⟨[], ins, rest, by rw [heq]; rfl, ?_, hgt⟩
          simpa using h
      · rw [if_neg hc] at h; simp at h
    · obtain ⟨u, m, v, heq, hm, hgt⟩ := ih h
      exact ⟨c :: u, m, v, by rw [heq]; rfl, hm, hgt⟩

theorem containsTag_of_middle {p y s : List Char}
    (h : containsTag y = true) : containsTag (p ++ y ++ s) = true := by
  obtain ⟨u, m, v, heq, hm, hgt⟩ := containsTag_decomp h
  have : p ++ y ++ s = (p ++ u) ++ '<' :: (m ++ '>' :: (v ++ s)) := by
    rw [heq]; simp
  rw [this]
  exact containsTag_of_tag _ _ _ hm hgt

theorem containsTag_clean_text (text : List Char) :
    containsTag (clean_text text) = false := by
  unfold clean_text
  set m := pyReplace '\t' ' ' (pyReplace '\r' ' '
    (pyReplace '\n' ' ' (joinSpace (pySplitWs text)))) with hm
  obtain ⟨p, s, hps⟩ := pyStrip_middle (removeTags m)
  by_contra hct
  have hct' : containsTag (pyStrip (removeTags m)) = true := by
    revert hct
    cases containsTag (pyStrip (removeTags m)) <;> simp
  have := @containsTag_of_middle p (pyStrip (removeTags m)) s hct'
  rw [← hps, containsTag_removeTags] at this
  cases this

/-! ### Sentence-splitting lemmas -/

theorem splitOnDot_ne_nil : ∀ l : List Char, splitOnDot l ≠ [] := by
  intro l
  induction l with
  | nil => simp [splitOnDot]
  | cons c cs ih =>
    rw [splitOnDot]
    by_cases hc : c = '.'
    · simp [hc]
    · rw [if_neg hc]
      cases hs : splitOnDot cs with
      | nil => exact absurd hs ih
      | cons t ts => simp

theorem mem_splitOnDot :
    ∀ {l s : List Char}, s ∈ splitOnDot l →
      '.' ∉ s ∧ ∀ c ∈ s, c ∈ l := by
  intro l
  induction l with
  | nil =>
    intro s hs
    simp [splitOnDot] at hs
    subst hs
    simp
  | cons c cs ih =>
    intro s hs
    rw [splitOnDot] at hs
    by_cases hc : c = '.'
    · rw [if_pos hc] at hs
      rcases List.mem_cons.mp hs with rfl | hs'
      · simp
      · obtain ⟨h1, h2⟩ := ih hs'
        exact ⟨h1, fun x hx => List.mem_cons_of_mem c (h2 x hx)⟩
    · rw [if_neg hc] at hs
      cases hsp : splitOnDot cs with
      | nil => exact absurd hsp (splitOnDot_ne_nil cs)
      | cons t ts =>
        rw [hsp] at hs
        rcases List.mem_cons.mp hs with rfl | hs'
        · obtain ⟨h1, h2⟩ := ih (hsp ▸ List.mem_cons_self t ts)
          constructor
          · intro hdot
            rcases List.mem_cons.mp hdot with hdc | hdt
            · exact hc hdc.symm
            · exact h1 hdt
          · intro x hx
            rcases List.mem_cons.mp hx with rfl | hxt
            · exact List.mem_cons_self _ _
            · exact List.mem_cons_of_mem c (h2 x hxt)
        · obtain ⟨h1, h2⟩ := ih (hsp ▸ List.mem_cons_of_mem t hs')
          exact ⟨h1, fun x hx => List.mem_cons_of_mem c (h2 x hx)⟩

theorem not_mem_pyReplace {a b : Char} (l : List Char) (hba : ¬ b = a) :
    a ∉ pyReplace a b l := by
  intro hmem
  obtain ⟨c, _, hc⟩ := List.mem_map.mp hmem
  by_cases hca : c = a
  · rw [if_pos hca] at hc; exact hba hc
  · rw [if_neg hca] at hc; exact hca hc

theorem mem_pyReplace {a b c : Char} {l : List Char}
    (h : c ∈ pyReplace a b l) : c = b ∨ c ∈ l := by
  obtain ⟨d, hd, hdc⟩ := List.mem_map.mp h
  by_cases hda : d = a
  · rw [if_pos hda] at hdc; exact Or.inl hdc.symm
  · rw [if_neg hda] at hdc; exact Or.inr (hdc ▸ hd)

theorem sentencesOf_ok {text s : List Char} (h : s ∈ sentencesOf text) :
    '.' ∉ s ∧ '!' ∉ s ∧ '?' ∉ s := by
  obtain ⟨hdot, hsub⟩ := mem_splitOnDot h
  refine ⟨hdot, ?_, ?_⟩
  · intro hbang
    rcases mem_pyReplace (hsub '!' hbang) with he | hin
    · exact absurd he (by decide)
    · exact not_mem_pyReplace _ (by decide) hin
  · intro hq
    exact not_mem_pyReplace _ (by decide) (hsub '?' hq)

/-! ### Whitespace-collapse lemmas (a split-and-join with single spaces) -/

/-- No two adjacent characters are both whitespace. -/
def noAdjWs : List Char → Bool
  | [] => true
  | [_] => true
  | a :: b :: rest => (!isPySpace a || !isPySpace b) && noAdjWs (b :: rest)

theorem splitWsAux_words :
    ∀ (l acc : List Char), (∀ c ∈ acc, isPySpace c = false) →
      ∀ w ∈ splitWsAux l acc, w ≠ [] ∧ ∀ c ∈ w, isPySpace c = false := by
  intro l
  induction l with
  | nil =>
    intro acc hacc w hw
    rw [splitWsAux] at hw
    by_cases ha : acc = []
    · rw [if_pos ha] at hw; simp at hw
    · rw [if_neg ha] at hw
      rcases List.mem_singleton.mp hw with rfl
      exact ⟨by simpa using ha, by simpa using hacc⟩
  | cons c cs ih =>
    intro acc hacc w hw
    rw [splitWsAux] at hw
    by_cases hc : isPySpace c = true
    · rw [if_pos hc] at hw
      by_cases ha : acc = []
      · rw [if_pos ha] at hw
        exact ih [] (by simp) w hw
      · rw [if_neg ha] at hw
        rcases List.mem_cons.mp hw with rfl | hw'
        · exact ⟨by simpa using ha, by simpa using hacc⟩
        · exact ih [] (by simp) w hw'
    · rw [if_neg hc] at hw
      refine ih (c :: acc) ?_ w hw
      intro x hx
      rcases List.mem_cons.mp hx with rfl | hx'
      · simpa using hc
      · exact hacc x hx'

theorem pySplitWs_words {text w : List Char} (h : w ∈ pySplitWs text) :
    w ≠ [] ∧ ∀ c ∈ w, isPySpace c = false :=
  splitWsAux_words text [] (by simp) w h

theorem noAdjWs_word_append {w rest : List Char}
    (hw : ∀ c ∈ w, isPySpace c = false) (hr : noAdjWs rest = true) :
    noAdjWs (w ++ rest) = true := by
  induction w with
  | nil => simpa using hr
  | cons a w' ih =>
    have ha : isPySpace a = false := hw a (List.mem_cons_self a w')
    have ih' : noAdjWs (w' ++ rest) = true :=
      ih fun c hc => hw c (List.mem_cons_of_mem a hc)
    rw [List.cons_append]
    cases hwr : w' ++ rest with
    | nil => rfl
    | cons b bs =>
      rw [noAdjWs, ← hwr, ih', ha]
      simp

theorem joinSpace_single (w : List Char) : joinSpace [w] = w := rfl

theorem joinSpace_cons2 (w w2 : List Char) (ws : List (List Char)) :
    joinSpace (w :: w2 :: ws) = w ++ ' ' :: joinSpace (w2 :: ws) := rfl

theorem joinSpace_head {ws : List (List Char)}
    (hws : ∀ w ∈ ws, w ≠ [] ∧ ∀ c ∈ w, isPySpace c = false) :
    ∀ {c : Char} {cs : List Char}, joinSpace ws = c :: cs →
      isPySpace c = false := by
  intro c cs heq
  cases ws with
  | nil => simp [joinSpace] at heq
  | cons w ws' =>
    obtain ⟨hne, hnc⟩ := hws w (List.mem_cons_self w ws')
    cases w with
    | nil => exact absurd rfl hne
    | cons a t =>
      have ha : isPySpace a = false := hnc a (List.mem_cons_self a t)
      cases ws' with
      | nil =>
        rw [joinSpace_single] at heq
        injection heq with h1 h2
        exact h1 ▸ ha
      | cons w2 ws'' =>
        rw [joinSpace_cons2, List.cons_append] at heq
        injection heq with h1 h2
        exact h1 ▸ ha

theorem noAdjWs_joinSpace :
    ∀ ws : List (List Char),
      (∀ w ∈ ws, w ≠ [] ∧ ∀ c ∈ w, isPySpace c = false) →
      noAdjWs (joinSpace ws) = true := by
  intro ws
  induction ws with
  | nil => intro _; rfl
  | cons w ws' ih =>
    intro hws
    have hw := hws w (List.mem_cons_self w ws')
    have hws' : ∀ v ∈ ws', v ≠ [] ∧ ∀ c ∈ v, isPySpace c = false :=
      fun v hv => hws v (List.mem_cons_of_mem w hv)
    cases ws' with
    | nil =>
      rw [joinSpace_single]
      have := @noAdjWs_word_append w [] hw.2 rfl
      simpa using this
    | cons w2 ws'' =>
      rw [joinSpace_cons2]
      refine noAdjWs_word_append hw.2 ?_
      have hj := ih hws'
      cases hjs : joinSpace (w2 :: ws'') with
      | nil => rfl
      | cons c cs =>
        have hc : isPySpace c = false := joinSpace_head hws' hjs
        rw [noAdjWs, ← hjs, hj, hc]
        simp

theorem mem_joinSpace {c : Char} :
    ∀ {ws : List (List Char)}, c ∈ joinSpace ws →
      c = ' ' ∨ ∃ w ∈ ws, c ∈ w := by
  intro ws
  induction ws with
  | nil => intro h; simp [joinSpace] at h
  | cons w ws' ih =>
    intro h
    cases ws' with
    | nil =>
      rw [joinSpace_single] at h
      exact Or.inr ⟨w, List.mem_cons_self w [], h⟩
    | cons w2 ws'' =>
      rw [joinSpace_cons2] at h
      rcases List.mem_append.mp h with hw | hrest
      · exact Or.inr ⟨w, List.mem_cons_self _ _, hw⟩
      · rcases List.mem_cons.mp hrest with rfl | hj
        · exact Or.inl rfl
        · rcases ih hj with h' | ⟨v, hv, hcv⟩
          · exact Or.inl h'
          · exact Or.inr ⟨v, List.mem_cons_of_mem w hv, hcv⟩

/-! ### Chunker invariants -/

/-- A stripped non-empty sentence as the chunk loop sees it: non-space
first and last characters, and none of `.`, `!`, `?` inside. -/
def SentOK (s : List Char) : Prop :=
  (∃ h t, s = h :: t ∧ isPySpace h = false) ∧
  (∃ f x, s = f ++ [x] ∧ isPySpace x = false) ∧
  '.' ∉ s ∧ '!' ∉ s ∧ '?' ∉ s

/-- Invariant of the accumulator `current_chunk` in `_chunk_text`. -/
def CurGood (maxChars : Nat) (cur : List Char) : Prop :=
  cur = [] ∨
  ((∃ b, cur = b ++ ['.', ' ']) ∧
   (∃ h t, cur = h :: t ∧ isPySpace h = false) ∧
   '!' ∉ cur ∧ '?' ∉ cur ∧
   (cur.length ≤ maxChars ∨ ∃ s, cur = s ++ ['.', ' '] ∧ SentOK s))

/-- Invariant of every chunk emitted on the splitting path of
`_chunk_text`: non-empty, trimmed, period-terminated, free of `!`/`?`,
and within the limit unless it is a single unsplittable sentence. -/
def ChunkOK (maxChars : Nat) (c : List Char) : Prop :=
  c ≠ [] ∧ pyStrip c = c ∧ (∃ f, c = f ++ ['.']) ∧ '!' ∉ c ∧ '?' ∉ c ∧
  (c.length ≤ maxChars ∨
    ∃ s, c = s ++ ['.'] ∧ '.' ∉ s ∧ s ≠ [] ∧ pyStrip s = s)

theorem SentOK_pyStrip {s : List Char} (hdot : '.' ∉ s) (hbang : '!' ∉ s)
    (hq : '?' ∉ s) (hn : pyStrip s ≠ []) : SentOK (pyStrip s) := by
  rcases pyStripGood s with h | ⟨hh, hl⟩
  · exact absurd h hn
  · exact ⟨hh, hl, fun hm => hdot (mem_pyStrip hm),
      fun hm => hbang (mem_pyStrip hm), fun hm => hq (mem_pyStrip hm)⟩

theorem SentOK_strip_self {s : List Char} (hs : SentOK s) :
    pyStrip s = s :=
  pyStrip_eq_self hs.1 hs.2.1

theorem SentOK_ne_nil {s : List Char} (hs : SentOK s) : s ≠ [] := by
  obtain ⟨⟨h, t, heq, _⟩, _⟩ := hs
  rw [heq]
  simp

theorem pyStrip_body {b : List Char} {h : Char} {t : List Char}
    (hc : b ++ ['.', ' '] = h :: t) (hh : isPySpace h = false) :
    pyStrip (b ++ ['.', ' ']) = b ++ ['.'] := by
  unfold pyStrip
  rw [hc, dropLeadingWs_cons_false hh, ← hc]
  have hsplit : b ++ ['.', ' '] = (b ++ ['.']) ++ [' '] := by simp
  rw [hsplit, dropTrailingWs_append_true (by decide),
    dropTrailingWs_append_false (by decide)]

theorem ChunkOK_of_CurGood {maxChars : Nat} {cur : List Char}
    (hg : CurGood maxChars cur) (hne : cur ≠ []) :
    ChunkOK maxChars (pyStrip cur) := by
  rcases hg with rfl | ⟨⟨b, hb⟩, ⟨h, t, hht, hh⟩, hbang, hq, hlen⟩
  · exact absurd rfl hne
  · have hps : pyStrip cur = b ++ ['.'] := by
      rw [hb]
      exact pyStrip_body (hb ▸ hht) hh
    have hhead : ∃ h' t', b ++ ['.'] = h' :: t' ∧ isPySpace h' = false := by
      cases b with
      | nil =>
        refine ⟨'.', [], rfl, by decide⟩
      | cons c bs =>
        have hcc : c = h := by
          have h3 := hb.symm.trans hht
          rw [List.cons_append] at h3
          injection h3
        exact ⟨c, bs ++ ['.'], rfl, hcc ▸ hh⟩
    refine ⟨?_, ?_, ?_, ?_, ?_, ?_⟩
    · rw [hps]; simp
    · rw [hps]
      exact pyStrip_eq_self hhead ⟨b, '.', rfl, by decide⟩
    · exact ⟨b, hps⟩
    · intro hm
      exact hbang (mem_pyStrip hm)
    · intro hm
      exact hq (mem_pyStrip hm)
    · rcases hlen with hle | ⟨s, hseq, hsok⟩
      · left
        rw [hps]
        have h1 : (b ++ ['.']).length ≤ (b ++ ['.', ' ']).length := by
          simp
        have h2 : cur.length ≤ maxChars := hle
        rw [hb] at h2
        exact le_trans h1 h2
      · right
        have hbs : b = s := by
          exact List.append_cancel_right (hb.symm.trans hseq)
        refine ⟨s, by rw [hps, hbs], hsok.2.2.1, SentOK_ne_nil hsok,
          SentOK_strip_self hsok⟩

theorem CurGood_single {maxChars : Nat} {s : List Char} (hs : SentOK s) :
    CurGood maxChars (s ++ ['.', ' ']) := by
  obtain ⟨h, t, hht, hh⟩ := hs.1
  right
  refine ⟨⟨s, rfl⟩, ⟨h, t ++ ['.', ' '], by rw [hht]; rfl, hh⟩, ?_, ?_,
    Or.inr ⟨s, rfl, hs⟩⟩
  · intro hm
    rcases List.mem_append.mp hm with hm' | hm'
    · exact hs.2.2.2.1 hm'
    · simp at hm'
  · intro hm
    rcases List.mem_append.mp hm with hm' | hm'
    · exact hs.2.2.2.2 hm'
    · simp at hm'

theorem CurGood_extend {maxChars : Nat} {cur s : List Char}
    (hg : CurGood maxChars cur) (hs : SentOK s)
    (hlen : (cur ++ s ++ ['.', ' ']).length ≤ maxChars) :
    CurGood maxChars (cur ++ s ++ ['.', ' ']) := by
  rcases hg with rfl | ⟨⟨b, hb⟩, ⟨h0, t0, hht0, hh0⟩, hbang0, hq0, _⟩
  · simp only [List.nil_append]
    exact CurGood_single hs
  · obtain ⟨⟨h, t, hht, hh⟩, _, hdot, hbang, hq⟩ := hs
    right
    refine ⟨⟨cur ++ s, by simp⟩, ⟨h0, t0 ++ s ++ ['.', ' '], ?_, hh0⟩,
      ?_, ?_, Or.inl hlen⟩
    · rw [hht0]
      simp
    · intro hm
      rcases List.mem_append.mp hm with hm' | hm'
      · rcases List.mem_append.mp hm' with hm'' | hm''
        · exact hbang0 hm''
        · exact hbang hm''
      · simp at hm'
    · intro hm
      rcases List.mem_append.mp hm with hm' | hm'
      · rcases List.mem_append.mp hm' with hm'' | hm''
        · exact hq0 hm''
        · exact hq hm''
      · simp at hm'

theorem flushChunk_ok {maxChars : Nat} {chunks : List (List Char)}
    {cur : List Char} (hchunks : ∀ c ∈ chunks, ChunkOK maxChars c)
    (hg : CurGood maxChars cur) :
    ∀ c ∈ flushChunk chunks cur, ChunkOK maxChars c := by
  intro c hc
  unfold flushChunk at hc
  by_cases hcur : cur = []
  · rw [if_pos hcur] at hc
    exact hchunks c hc
  · rw [if_neg hcur] at hc
    rcases List.mem_append.mp hc with hm | hm
    · exact hchunks c hm
    · rcases List.mem_singleton.mp hm with rfl
      exact ChunkOK_of_CurGood hg hcur

theorem chunkLoop_ok {maxChars : Nat} :
    ∀ (sents : List (List Char)) (cur : List Char)
      (chunks : List (List Char)),
      (∀ s ∈ sents, '.' ∉ s ∧ '!' ∉ s ∧ '?' ∉ s) →
      CurGood maxChars cur →
      (∀ c ∈ chunks, ChunkOK maxChars c) →
      ∀ c ∈ chunkLoop maxChars sents cur chunks, ChunkOK maxChars c := by
  intro sents
  induction sents with
  | nil =>
    intro cur chunks _ hg hchunks c hc
    rw [chunkLoop] at hc
    exact flushChunk_ok hchunks hg c hc
  | cons s rest ih =>
    intro cur chunks hs hg hchunks c hc
    have hs0 := hs s (List.mem_cons_self s rest)
    have hrest : ∀ u ∈ rest, '.' ∉ u ∧ '!' ∉ u ∧ '?' ∉ u :=
      fun u hu => hs u (List.mem_cons_of_mem s hu)
    rw [chunkLoop] at hc
    by_cases hemp : pyStrip s = []
    · rw [if_pos hemp] at hc
      exact ih cur chunks hrest hg hchunks c hc
    · rw [if_neg hemp] at hc
      have hsok : SentOK (pyStrip s) :=
        SentOK_pyStrip hs0.1 hs0.2.1 hs0.2.2 hemp
      have hstr : pyStrip (pyStrip s) = pyStrip s := pyStrip_idem s
      by_cases hfit : (cur ++ pyStrip s ++ ['.', ' ']).length ≤ maxChars
      · rw [if_pos hfit] at hc
        exact ih _ chunks hrest (CurGood_extend hg hsok hfit) hchunks c hc
      · rw [if_neg hfit] at hc
        exact ih _ _ hrest (CurGood_single hsok)
          (flushChunk_ok hchunks hg) c hc

theorem chunk_text_cases {maxChars : Nat} {text c : List Char}
    (h : c ∈ chunk_text maxChars text) :
    (text.length ≤ maxChars ∧ c = text) ∨
      (maxChars < text.length ∧ ChunkOK maxChars c) := by
  unfold chunk_text at h
  by_cases hlen : text.length ≤ maxChars
  · rw [if_pos hlen] at h
    exact Or.inl ⟨hlen, List.mem_singleton.mp h⟩
  · rw [if_neg hlen] at h
    refine Or.inr ⟨Nat.lt_of_not_le hlen, ?_⟩
    refine chunkLoop_ok (sentencesOf text) [] [] ?_ (Or.inl rfl)
      (by intro c hc; simp at hc) c h
    intro s hsm
    exact sentencesOf_ok hsm

/-! ### Pipeline lemmas -/

theorem runChunks_fst {ε : Type} (engine : EngineCall → Except ε (List Nat))
    (b : Bool) (rate pitch : ℚ) :
    ∀ cs : List (List Char), ∃ k,
      (runChunks engine b rate pitch cs).fst =
        (cs.take k).map (mkCall b rate pitch) := by
  intro cs
  induction cs with
  | nil => exact ⟨0, rfl⟩
  | cons c cs' ih =>
    cases he : engine (mkCall b rate pitch c) with
    | error e =>
      refine ⟨1, ?_⟩
      rw [runChunks, he]
      rfl
    | ok bytes =>
      obtain ⟨k, hk⟩ := ih
      refine ⟨k + 1, ?_⟩
      rw [runChunks, he]
      rcases hr : runChunks engine b rate pitch cs' with ⟨calls, res⟩
      rw [hr] at hk
      cases res with
      | error e =>
        simp only [List.take_succ_cons, List.map_cons]
        exact congrArg (List.cons (mkCall b rate pitch c)) hk
      | ok segs =>
        simp only [List.take_succ_cons, List.map_cons]
        exact congrArg (List.cons (mkCall b rate pitch c)) hk

theorem mem_runChunks_fst {ε : Type}
    {engine : EngineCall → Except ε (List Nat)} {b : Bool} {rate pitch : ℚ}
    {cs : List (List Char)} {call : EngineCall}
    (h : call ∈ (runChunks engine b rate pitch cs).fst) :
    ∃ c ∈ cs, call = mkCall b rate pitch c := by
  obtain ⟨k, hk⟩ := runChunks_fst engine b rate pitch cs
  rw [hk] at h
  obtain ⟨c, hc, hcall⟩ := List.mem_map.mp h
  exact ⟨c, List.mem_of_mem_take hc, hcall.symm⟩

theorem runChunks_ok {ε : Type}
    {engine : EngineCall → Except ε (List Nat)} {b : Bool} {rate pitch : ℚ} :
    ∀ {cs : List (List Char)} {segs : List (List Nat)},
      (runChunks engine b rate pitch cs).snd = Except.ok segs →
      List.Forall₂
        (fun c seg => engine (mkCall b rate pitch c) = Except.ok seg)
        cs segs := by
  intro cs
  induction cs with
  | nil =>
    intro segs h
    simp only [runChunks] at h
    rw [← Except.ok.inj h]
    exact List.Forall₂.nil
  | cons c cs' ih =>
    intro segs h
    rw [runChunks] at h
    cases he : engine (mkCall b rate pitch c) with
    | error e => rw [he] at h; simp at h
    | ok bytes =>
      rw [he] at h
      rcases hr : runChunks engine b rate pitch cs' with ⟨calls, res⟩
      rw [hr] at h
      cases res with
      | error e => simp at h
      | ok segs' =>
        simp only at h
        rw [← Except.ok.inj h]
        refine List.Forall₂.cons he (ih ?_)
        rw [hr]

theorem runChunks_error {ε : Type}
    {engine : EngineCall → Except ε (List Nat)} {b : Bool} {rate pitch : ℚ} :
    ∀ {cs : List (List Char)},
      (∃ c ∈ cs, ∃ e, engine (mkCall b rate pitch c) = Except.error e) →
      ∃ c ∈ cs, ∃ e, engine (mkCall b rate pitch c) = Except.error e ∧
        (runChunks engine b rate pitch cs).snd = Except.error e := by
  intro cs
  induction cs with
  | nil => intro h; simp at h
  | cons c cs' ih =>
    intro h
    cases he : engine (mkCall b rate pitch c) with
    | error e =>
      refine ⟨c, List.mem_cons_self c cs', e, he, ?_⟩
      rw [runChunks, he]
    | ok bytes =>
      have h' : ∃ c' ∈ cs', ∃ e,
          engine (mkCall b rate pitch c') = Except.error e := by
        obtain ⟨c', hc', e, he'⟩ := h
        rcases List.mem_cons.mp hc' with rfl | hm
        · rw [he] at he'; cases he'
        · exact ⟨c', hm, e, he'⟩
      obtain ⟨c', hm, e, he', hsnd⟩ := ih h'
      refine ⟨c', List.mem_cons_of_mem c hm, e, he', ?_⟩
      rw [runChunks, he]
      rcases hr : runChunks engine b rate pitch cs' with ⟨calls, res⟩
      rw [hr] at hsnd
      simp only at hsnd
      rw [hsnd]

theorem text_to_speech_fst {ε : Type}
    {engine : EngineCall → Except ε (List Nat)} {maxChars : Nat}
    {text : List Char} {rate pitch : ℚ} {is_ssml : Bool}
    (h : pyStrip text ≠ []) :
    (text_to_speech engine maxChars text rate pitch is_ssml).fst =
      (runChunks engine is_ssml rate pitch
        (chunk_text maxChars (clean_text text))).fst := by
  unfold text_to_speech
  rw [if_neg h]
  rcases hr : runChunks engine is_ssml rate pitch
    (chunk_text maxChars (clean_text text)) with ⟨calls, res⟩
  cases res <;> simp

theorem text_to_speech_empty {ε : Type}
    {engine : EngineCall → Except ε (List Nat)} {maxChars : Nat}
    {text : List Char} {rate pitch : ℚ} {is_ssml : Bool}
    (h : pyStrip text = []) :
    text_to_speech engine maxChars text rate pitch is_ssml =
      ([], Except.error TTSError.validation) := by
  unfold text_to_speech
  rw [if_pos h]

theorem text_to_speech_snd_ok {ε : Type}
    {engine : EngineCall → Except ε (List Nat)} {maxChars : Nat}
    {text : List Char} {rate pitch : ℚ} {is_ssml : Bool}
    {out : List Nat}
    (h : (text_to_speech engine maxChars text rate pitch is_ssml).snd =
      Except.ok out) :
    pyStrip text ≠ [] ∧ ∃ segs,
      (runChunks engine is_ssml rate pitch
        (chunk_text maxChars (clean_text text))).snd = Except.ok segs ∧
      out = segs.flatten := by
  by_cases hemp : pyStrip text = []
  · rw [text_to_speech_empty hemp] at h
    simp at h
  · refine ⟨hemp, ?_⟩
    unfold text_to_speech at h
    rw [if_neg hemp] at h
    rcases hr : runChunks engine is_ssml rate pitch
      (chunk_text maxChars (clean_text text)) with ⟨calls, res⟩
    rw [hr] at h
    cases res with
    | error e => simp at h
    | ok segs =>
      simp only at h
      exact ⟨segs, rfl, (Except.ok.inj h).symm⟩

theorem text_to_speech_snd_engine_error {ε : Type}
    {engine : EngineCall → Except ε (List Nat)} {maxChars : Nat}
    {text : List Char} {rate pitch : ℚ} {is_ssml : Bool} {e : ε}
    (hemp : pyStrip text ≠ [])
    (h : (runChunks engine is_ssml rate pitch
      (chunk_text maxChars (clean_text text))).snd = Except.error e) :
    (text_to_speech engine maxChars text rate pitch is_ssml).snd =
      Except.error (TTSError.engine e) := by
  unfold text_to_speech
  rw [if_neg hemp]
  rcases hr : runChunks engine is_ssml rate pitch
    (chunk_text maxChars (clean_text text)) with ⟨calls, res⟩
  rw [hr] at h
  simp only at h
  rw [h]

theorem inputChars_mkCall (b : Bool) (rate pitch : ℚ) (c : List Char) :
    inputChars (mkCall b rate pitch c).input = c := by
  unfold mkCall buildInput
  split <;> rfl

theorem text_to_speech_snd_of_ok {ε : Type}
    {engine : EngineCall → Except ε (List Nat)} {maxChars : Nat}
    {text : List Char} {rate pitch : ℚ} {is_ssml : Bool}
    {segs : List (List Nat)}
    (hemp : pyStrip text ≠ [])
    (h : (runChunks engine is_ssml rate pitch
      (chunk_text maxChars (clean_text text))).snd = Except.ok segs) :
    (text_to_speech engine maxChars text rate pitch is_ssml).snd =
      Except.ok segs.flatten := by
  unfold text_to_speech
  rw [if_neg hemp]
  rcases hr : runChunks engine is_ssml rate pitch
    (chunk_text maxChars (clean_text text)) with ⟨calls, res⟩
  rw [hr] at h
  simp only at h
  rw [h]

/-! ### The claims -/

/-- C1, as stated, is false on the code: `_clean_text` is applied
unconditionally, so a markup-flagged input does NOT bypass tag stripping.
Concretely, for the SSML-flagged request `<speak>Hello world</speak>`
the engine receives the plain text `Hello world` — the tags are gone —
although the claim says the markup reaches the chunker intact. -/
theorem c1_counterexample :
    text_to_speech echoEngine 10000 "<speak>Hello world</speak>".data
        1 0 true =
      ([⟨SynthesisInput.text "Hello world".data, 1, 0⟩],
        Except.ok ("Hello world".data.map Char.toNat)) ∧
    "Hello world".data ≠ "<speak>Hello world</speak>".data := by
  constructor
  · rfl
  · decide

/-- C1 (amended): tag stripping is unconditional.  For every input,
markup-flagged or not, each chunk the engine receives is a chunk of the
cleaned text; the cleaned text contains no angle-bracket tag and no
leading or trailing whitespace; and the whitespace-collapse stage (which
runs before tag removal) leaves no adjacent whitespace pair and turns
every whitespace character into a single space. -/
theorem c1_tag_stripping_unconditional {ε : Type}
    (engine : EngineCall → Except ε (List Nat)) (maxChars : Nat)
    (text : List Char) (rate pitch : ℚ) (is_ssml : Bool) :
    (∀ call ∈ (text_to_speech engine maxChars text rate pitch is_ssml).fst,
      inputChars call.input ∈ chunk_text maxChars (clean_text text)) ∧
    containsTag (clean_text text) = false ∧
    pyStrip (clean_text text) = clean_text text ∧
    noAdjWs (joinSpace (pySplitWs text)) = true ∧
    ∀ c ∈ joinSpace (pySplitWs text), isPySpace c = true → c = ' ' := by
  refine ⟨?_, containsTag_clean_text text, ?_, ?_, ?_⟩
  · intro call hcall
    by_cases hemp : pyStrip text = []
    · rw [text_to_speech_empty hemp] at hcall
      simp at hcall
    · rw [text_to_speech_fst hemp] at hcall
      obtain ⟨c, hc, rfl⟩ := mem_runChunks_fst hcall
      rw [inputChars_mkCall]
      exact hc
  · unfold clean_text
    exact pyStrip_idem _
  · exact noAdjWs_joinSpace _ fun w hw => pySplitWs_words hw
  · intro c hc hsp
    rcases mem_joinSpace hc with h | ⟨w, hw, hcw⟩
    · exact h
    · have := (pySplitWs_words hw).2 c hcw
      rw [this] at hsp
      cases hsp

/-- C1 witness: the amended statement evaluated on the SSML-flagged
request `<speak>Hello world</speak>`. -/
theorem c1_witness :
    inputChars
        ((⟨SynthesisInput.text "Hello world".data, 1, 0⟩ :
          EngineCall).input) ∈
      chunk_text 10000 (clean_text "<speak>Hello world</speak>".data) ∧
    containsTag (clean_text "<speak>Hello world</speak>".data) = false ∧
    pyStrip (clean_text "<speak>Hello world</speak>".data) =
      clean_text "<speak>Hello world</speak>".data := by
  have h := c1_tag_stripping_unconditional echoEngine 10000
    "<speak>Hello world</speak>".data 1 0 true
  exact ⟨h.1 _ (by decide), h.2.1, h.2.2.1⟩

/-- C2: if any remote call for a chunk of the request fails, the whole
request fails with that engine error: the result is the error of a
failing chunk, no `Except.ok` value (hence no partial audio) is returned,
and the trace of calls issued is one call per chunk over a prefix of the
chunk list (each chunk is called at most once — no retry). -/
theorem c2_failure_aborts {ε : Type}
    (engine : EngineCall → Except ε (List Nat)) (maxChars : Nat)
    (text : List Char) (rate pitch : ℚ) (is_ssml : Bool)
    (hemp : pyStrip text ≠ [])
    (hfail : ∃ c ∈ chunk_text maxChars (clean_text text), ∃ e,
      engine (mkCall is_ssml rate pitch c) = Except.error e) :
    (∃ c ∈ chunk_text maxChars (clean_text text), ∃ e,
      engine (mkCall is_ssml rate pitch c) = Except.error e ∧
      (text_to_speech engine maxChars text rate pitch is_ssml).snd =
        Except.error (TTSError.engine e)) ∧
    (∀ out, (text_to_speech engine maxChars text rate pitch is_ssml).snd ≠
      Except.ok out) ∧
    (∃ k, (text_to_speech engine maxChars text rate pitch is_ssml).fst =
      ((chunk_text maxChars (clean_text text)).take k).map
        (mkCall is_ssml rate pitch)) := by
  obtain ⟨c, hc, e, he, hsnd⟩ := runChunks_error hfail
  have herr := text_to_speech_snd_engine_error hemp hsnd
  refine ⟨⟨c, hc, e, he, herr⟩, ?_, ?_⟩
  · intro out hout
    rw [herr] at hout
    cases hout
  · rw [text_to_speech_fst hemp]
    exact runChunks_fst engine is_ssml rate pitch _

/-- C2 witness: a request whose only chunk fails with error code `7`. -/
theorem c2_witness :
    (∃ c ∈ chunk_text 10000 (clean_text "hi".data), ∃ e,
      failEngine7 (mkCall false 1 0 c) = Except.error e ∧
      (text_to_speech failEngine7 10000 "hi".data 1 0 false).snd =
        Except.error (TTSError.engine e)) ∧
    (∀ out, (text_to_speech failEngine7 10000 "hi".data 1 0 false).snd ≠
      Except.ok out) ∧
    (∃ k, (text_to_speech failEngine7 10000 "hi".data 1 0 false).fst =
      ((chunk_text 10000 (clean_text "hi".data)).take k).map
        (mkCall false 1 0)) :=
  c2_failure_aborts failEngine7 10000 "hi".data 1 0 false (by decide)
    ⟨"hi".data, by decide, 7, rfl⟩

/-- C3, as stated, is false on the code: the emptiness check runs on the
RAW input (`if not text.strip()`), before normalization.  The input
`<b></b>` normalizes to the empty string, yet no `ValidationError` is
raised: the engine is called once (with an empty chunk) and the pipeline
returns `Except.ok`. -/
theorem c3_counterexample :
    clean_text "<b></b>".data = [] ∧
    text_to_speech constEngine7 10000 "<b></b>".data 1 0 false =
      ([⟨SynthesisInput.text [], 1, 0⟩], Except.ok [7]) := by
  constructor
  · rfl
  · rfl

/-- C3 (amended): the validation error is raised exactly for inputs that
are empty or whitespace-only BEFORE normalization, and in that case zero
engine calls are made.  An input whose non-whitespace content is entirely
tags passes the check, is cleaned to empty, and is still sent to the
engine. -/
theorem c3_validation_iff_raw_blank {ε : Type}
    (engine : EngineCall → Except ε (List Nat)) (maxChars : Nat)
    (text : List Char) (rate pitch : ℚ) (is_ssml : Bool) :
    ((text_to_speech engine maxChars text rate pitch is_ssml).snd =
        Except.error TTSError.validation ↔ pyStrip text = []) ∧
    (pyStrip text = [] →
      (text_to_speech engine maxChars text rate pitch is_ssml).fst = []) := by
  constructor
  · constructor
    · intro hsnd
      by_contra hemp
      rcases hr : (runChunks engine is_ssml rate pitch
        (chunk_text maxChars (clean_text text))).snd with e | segs
      · rw [text_to_speech_snd_engine_error hemp hr] at hsnd
        cases hsnd
      · rw [text_to_speech_snd_of_ok hemp hr] at hsnd
        cases hsnd
    · intro hemp
      rw [text_to_speech_empty hemp]
  · intro hemp
    rw [text_to_speech_empty hemp]

/-- C3 witness: the amended statement evaluated on a whitespace-only
input. -/
theorem c3_witness :
    (text_to_speech constEngine7 10000 "  ".data 1 0 false).snd =
      Except.error TTSError.validation ∧
    (text_to_speech constEngine7 10000 "  ".data 1 0 false).fst = [] := by
  have h := c3_validation_iff_raw_blank constEngine7 10000 "  ".data 1 0
    false
  exact ⟨h.1.mpr (by decide), h.2 (by decide)⟩

/-- C4: on success the result is exactly the in-order flattening of one
audio segment per chunk — segment count equals chunk count, each segment
is what the engine returned for their chunk (in chunk-index order), and
the output byte length is the sum of the per-segment byte lengths. -/
theorem c4_assembler {ε : Type}
    (engine : EngineCall → Except ε (List Nat)) (maxChars : Nat)
    (text : List Char) (rate pitch : ℚ) (is_ssml : Bool) (out : List Nat)
    (h : (text_to_speech engine maxChars text rate pitch is_ssml).snd =
      Except.ok out) :
    ∃ segs : List (List Nat),
      List.Forall₂
        (fun c seg => engine (mkCall is_ssml rate pitch c) = Except.ok seg)
        (chunk_text maxChars (clean_text text)) segs ∧
      segs.length = (chunk_text maxChars (clean_text text)).length ∧
      out = segs.flatten ∧
      out.length = (segs.map List.length).sum := by
  obtain ⟨hemp, segs, hrc, hout⟩ := text_to_speech_snd_ok h
  have hf2 := runChunks_ok hrc
  refine ⟨segs, hf2, (List.Forall₂.length_eq hf2).symm, hout, ?_⟩
  rw [hout]
  exact List.length_flatten segs

/-- C4 witness: the theorem evaluated on a two-chunk-free request with a
fixed two-byte segment per call. -/
theorem c4_witness :
    ∃ segs : List (List Nat),
      List.Forall₂
        (fun c seg =>
          twoByteEngine (mkCall false 1 0 c) = Except.ok seg)
        (chunk_text 10000 (clean_text "hi".data)) segs ∧
      segs.length = (chunk_text 10000 (clean_text "hi".data)).length ∧
      [1, 2] = segs.flatten ∧
      ([1, 2] : List Nat).length = (segs.map List.length).sum :=
  c4_assembler twoByteEngine 10000 "hi".data 1 0 false [1, 2] (by rfl)

/-- C5: every chunk respects the limit, except that a chunk holding a
single sentence too long to fit is emitted whole: any chunk over the
limit is of the form `s ++ ['.']` for one sentence `s` containing no
further sentence boundary (`.`-free), non-empty, already stripped —
i.e. the sentence plus its terminator, not subdivided. -/
theorem c5_chunk_bound {maxChars : Nat} {text chunk : List Char}
    (h : chunk ∈ chunk_text maxChars text) :
    chunk.length ≤ maxChars ∨
      ∃ s, chunk = s ++ ['.'] ∧ '.' ∉ s ∧ s ≠ [] ∧ pyStrip s = s ∧
        maxChars < chunk.length := by
  by_cases hle : chunk.length ≤ maxChars
  · exact Or.inl hle
  · rcases chunk_text_cases h with ⟨hlen, rfl⟩ | ⟨_, hok⟩
    · exact absurd hlen hle
    · rcases hok.2.2.2.2.2 with hlen | ⟨s, hs, hdot, hne, hstr⟩
      · exact absurd hlen hle
      · exact Or.inr ⟨s, hs, hdot, hne, hstr, Nat.lt_of_not_le hle⟩

/-- C5 witness: with limit 3 the single long sentence `abcdef` is
emitted whole as `abcdef.`. -/
theorem c5_witness :
    "abcdef.".data.length ≤ 3 ∨
      ∃ s, "abcdef.".data = s ++ ['.'] ∧ '.' ∉ s ∧ s ≠ [] ∧
        pyStrip s = s ∧ 3 < "abcdef.".data.length :=
  @c5_chunk_bound 3 "abcdef".data "abcdef.".data (by decide)

/-- C6: an input within the limit is returned as the single chunk equal
to the input, untouched. -/
theorem c6_single_chunk {maxChars : Nat} {text : List Char}
    (h : text.length ≤ maxChars) : chunk_text maxChars text = [text] := by
  unfold chunk_text
  rw [if_pos h]

/-- C6 witness: a five-character input with the default limit. -/
theorem c6_witness :
    "hello".data.length ≤ 10000 ∧
      chunk_text 10000 "hello".data = ["hello".data] :=
  ⟨by decide, c6_single_chunk (by decide)⟩

/-- C7: an out-of-range speaking rate or pitch fails request validation
and the pipeline never runs (no engine call, validation error returned);
moreover every engine call ever issued through the endpoint carries an
in-range rate and pitch. -/
theorem c7_bounds {ε : Type}
    (engine : EngineCall → Except ε (List Nat)) (text : List Char)
    (rate pitch : ℚ) :
    ((¬ ((1 / 4 : ℚ) ≤ rate ∧ rate ≤ 4) ∨
      ¬ ((-20 : ℚ) ≤ pitch ∧ pitch ≤ 20)) →
      generate_audio engine text rate pitch =
        ([], Except.error TTSError.validation)) ∧
    ∀ call ∈ (generate_audio engine text rate pitch).fst,
      (1 / 4 : ℚ) ≤ call.speaking_rate ∧ call.speaking_rate ≤ 4 ∧
      (-20 : ℚ) ≤ call.pitch ∧ call.pitch ≤ 20 := by
  constructor
  · intro hbad
    have hnv : ¬ requestValid text rate pitch := by
      intro hv
      rcases hbad with h | h
      · exact h ⟨hv.2.2.1, hv.2.2.2.1⟩
      · exact h ⟨hv.2.2.2.2.1, hv.2.2.2.2.2⟩
    unfold generate_audio
    rw [if_neg hnv]
  · intro call hcall
    by_cases hv : requestValid text rate pitch
    · unfold generate_audio at hcall
      rw [if_pos hv] at hcall
      by_cases hemp : pyStrip text = []
      · rw [text_to_speech_empty hemp] at hcall
        simp at hcall
      · rw [text_to_speech_fst hemp] at hcall
        obtain ⟨c, _, rfl⟩ := mem_runChunks_fst hcall
        exact ⟨hv.2.2.1, hv.2.2.2.1, hv.2.2.2.2.1, hv.2.2.2.2.2⟩
    · unfold generate_audio at hcall
      rw [if_neg hv] at hcall
      simp at hcall

/-- C7 witness: rate 5.0 is rejected before any engine call; a valid
run's single call carries its in-range rate and pitch. -/
theorem c7_witness :
    generate_audio echoEngine "hi".data 5 0 =
      ([], Except.error TTSError.validation) ∧
    ((1 / 4 : ℚ) ≤ (mkCall false 1 0 "hi".data).speaking_rate ∧
      (mkCall false 1 0 "hi".data).speaking_rate ≤ 4 ∧
      (-20 : ℚ) ≤ (mkCall false 1 0 "hi".data).pitch ∧
      (mkCall false 1 0 "hi".data).pitch ≤ 20) := by
  have hv : requestValid "hi".data 1 0 := by
    refine ⟨by decide, by decide, by norm_num, by norm_num, by norm_num,
      by norm_num⟩
  have hfst : (generate_audio echoEngine "hi".data 1 0).fst =
      [mkCall false 1 0 "hi".data] := by
    unfold generate_audio
    rw [if_pos hv]
    rfl
  have hbad : ¬ ((1 / 4 : ℚ) ≤ 5 ∧ (5 : ℚ) ≤ 4) := fun hab =>
    absurd hab.2 (by norm_num)
  refine ⟨(c7_bounds echoEngine "hi".data 5 0).1 (Or.inl hbad), ?_⟩
  exact (c7_bounds echoEngine "hi".data 1 0).2 (mkCall false 1 0 "hi".data)
    (by rw [hfst]; exact List.mem_singleton.mpr rfl)

/-- C8, as stated, is false on the code: chunk count depends on sentence
structure, not only on length.  With limit 10, the 11-character input
`aaa.bbb.ccc` yields 2 chunks while the longer 12-character input
`aaaaaaaaaaaa` yields 1 chunk. -/
theorem c8_counterexample :
    "aaa.bbb.ccc".data.length ≤ "aaaaaaaaaaaa".data.length ∧
    ¬ ((chunk_text 10 "aaa.bbb.ccc".data).length ≤
        (chunk_text 10 "aaaaaaaaaaaa".data).length) := by
  decide

/-- C8 (amended): monotonicity of chunk count in input length holds only
when the longer input is within the limit (then both inputs are single
chunks); beyond the limit it fails. -/
theorem c8_monotone_within_limit {maxChars : Nat} {s t : List Char}
    (hst : s.length ≤ t.length) (ht : t.length ≤ maxChars) :
    (chunk_text maxChars s).length ≤ (chunk_text maxChars t).length := by
  unfold chunk_text
  rw [if_pos (le_trans hst ht), if_pos ht]
  exact Nat.le_refl 1

/-- C8 witness: the amended statement on two inputs within the limit. -/
theorem c8_witness :
    "ab".data.length ≤ "abc".data.length ∧
    "abc".data.length ≤ 10 ∧
    (chunk_text 10 "ab".data).length ≤ (chunk_text 10 "abc".data).length :=
  ⟨by decide, by decide, c8_monotone_within_limit (by decide) (by decide)⟩

/-- C9: every dispatched call is built from a chunk of the cleaned text,
and it is a markup (SSML) input exactly when the request was flagged as
SSML and the stripped chunk literally starts with `<?xml`; otherwise
the chunk is submitted as plain text, unchanged either way. -/
theorem c9_ssml_dispatch {ε : Type}
    (engine : EngineCall → Except ε (List Nat)) (maxChars : Nat)
    (text : List Char) (rate pitch : ℚ) (is_ssml : Bool) :
    ∀ call ∈ (text_to_speech engine maxChars text rate pitch is_ssml).fst,
      ∃ c ∈ chunk_text maxChars (clean_text text),
        call = mkCall is_ssml rate pitch c ∧
        ((∃ s, call.input = SynthesisInput.ssml s) ↔
          (is_ssml = true ∧ beginsWith xmlProlog (pyStrip c) = true)) ∧
        inputChars call.input = c := by
  intro call hcall
  by_cases hemp : pyStrip text = []
  · rw [text_to_speech_empty hemp] at hcall
    simp at hcall
  · rw [text_to_speech_fst hemp] at hcall
    obtain ⟨c, hc, rfl⟩ := mem_runChunks_fst hcall
    refine ⟨c, hc, rfl, ?_, inputChars_mkCall is_ssml rate pitch c⟩
    show (∃ s, (buildInput is_ssml c) = SynthesisInput.ssml s) ↔ _
    unfold buildInput
    by_cases hcond :
        (is_ssml && beginsWith xmlProlog (pyStrip c)) = true
    · rw [if_pos hcond]
      simp only [Bool.and_eq_true] at hcond
      constructor
      · intro _
        exact hcond
      · intro _
        exact ⟨c, rfl⟩
    · rw [if_neg hcond]
      constructor
      · intro hex
        obtain ⟨s, hs⟩ := hex
        cases hs
      · intro hboth
        exact absurd (Bool.and_eq_true .. ▸ hboth) hcond

/-- C9 witness: the single plain-text call of an unflagged request. -/
theorem c9_witness :
    ∃ c ∈ chunk_text 10000 (clean_text "hi".data),
      mkCall false 1 0 "hi".data = mkCall false 1 0 c ∧
      ((∃ s, (mkCall false 1 0 "hi".data).input = SynthesisInput.ssml s) ↔
        (false = true ∧ beginsWith xmlProlog (pyStrip c) = true)) ∧
      inputChars (mkCall false 1 0 "hi".data).input = c :=
  c9_ssml_dispatch twoByteEngine 10000 "hi".data 1 0 false
    (mkCall false 1 0 "hi".data) (by decide)

/-- C10: on the splitting path (input longer than the limit) every chunk
is non-empty, trimmed (`strip` is the identity on it), ends with a
period, and contains neither `!` nor `?`. -/
theorem c10_long_path_invariants {maxChars : Nat} {text chunk : List Char}
    (hlen : maxChars < text.length) (h : chunk ∈ chunk_text maxChars text) :
    chunk ≠ [] ∧ pyStrip chunk = chunk ∧ (∃ f, chunk = f ++ ['.']) ∧
      '!' ∉ chunk ∧ '?' ∉ chunk := by
  rcases chunk_text_cases h with ⟨hle, _⟩ | ⟨_, hok⟩
  · exact absurd hle (Nat.not_le_of_lt hlen)
  · exact ⟨hok.1, hok.2.1, hok.2.2.1, hok.2.2.2.1, hok.2.2.2.2.1⟩

/-- C10 witness: with limit 5 the input `hi there. ok!` is split into
chunks satisfying all invariants; here checked on the chunk `ok.`. -/
theorem c10_witness :
    "ok.".data ≠ [] ∧ pyStrip "ok.".data = "ok.".data ∧
      (∃ f, "ok.".data = f ++ ['.']) ∧
      '!' ∉ "ok.".data ∧ '?' ∉ "ok.".data :=
  @c10_long_path_invariants 5 "hi there. ok!".data "ok.".data (by decide)
    (by decide)

end Script2Sound
